import Mathlib

/-!
Verification of the LambdaCraft traversal combinators (src/lambda.h).

The header defines five macros over GNU99 nested functions:
  - `fold`      : left fold over a contiguous array, `for(int i=0;i<size;i++)`;
  - `fold_s`    : left fold over a linked chain, stopping at NULL;
  - `foreach_s` : chain traversal where the body returns the next element;
  - `map`       : array map, `out_array[i] = body(in_array[i])` in increasing order;
  - `map_s`     : recursive chain map, descending to NULL and building the new
                  chain tail-to-head, the body receiving the already-built
                  successor in `next`.

The embedding below models arrays as memories `Nat → β` indexed by address, the
loop counter as an `Int` (C `int`), chains as traversals through a successor
callable with an explicit fuel bound (a cyclic chain exhausts any fuel), and
`map_s` additionally against a heap of allocated nodes so that
non-destructiveness of the input chain is expressible.
-/

namespace LambdaCraft

/-- C `for(int i=0;i<size;i++) acc = body(in_array[i])` from the `fold` macro
(src/lambda.h lines 92-96): `i` is an `int`, the loop runs while `i < size`. -/
def foldAux (f : α → β → α) (arr : Nat → β) (size : Int) (i : Int) (acc : α) : α :=
  if _h : i < size then foldAux f arr size (i + 1) (f acc (arr i.toNat)) else acc
termination_by (size - i).toNat
decreasing_by omega

/-- The `fold` macro: accumulator starts at `init_acc`, the loop body replaces
it with the lambda's return value at each index. -/
def fold (f : α → β → α) (arr : Nat → β) (size : Int) (init : α) : α :=
  foldAux f arr size 0 init

/-- Structural-recursion form of the array fold loop: `k` iterations remain,
`i` is the current index. Used to reason about `foldAux` by induction. -/
def foldNat (f : α → β → α) (arr : Nat → β) : Nat → Nat → α → α
  | 0, _, acc => acc
  | k + 1, i, acc => foldNat f arr k (i + 1) (f acc (arr i))

/-- A store of one value at address `i` of a memory. -/
def writeArr (mem : Nat → β) (i : Nat) (v : β) : Nat → β :=
  fun j => if j = i then v else mem j

/-- C `for(int i=0;i<size;i++) out_array[i] = body(in_array[i])` from the `map`
macro (src/lambda.h lines 207-210), over a single memory so that the source
range (base `sb`) and destination range (base `db`) may alias. -/
def mapAux (tf : β → β) (sb db : Nat) (size : Int) (i : Int) (mem : Nat → β) : Nat → β :=
  if _h : i < size then
    mapAux tf sb db size (i + 1) (writeArr mem (db + i.toNat) (tf (mem (sb + i.toNat))))
  else mem
termination_by (size - i).toNat
decreasing_by omega

/-- The `map` macro: writes the transformed source slot to each destination
slot, index 0 first. -/
def map (tf : β → β) (sb db : Nat) (size : Int) (mem : Nat → β) : Nat → β :=
  mapAux tf sb db size 0 mem

/-- Structural-recursion form of the array map loop. -/
def mapNat (tf : β → β) (sb db : Nat) : Nat → Nat → (Nat → β) → Nat → β
  | 0, _, mem => mem
  | k + 1, i, mem =>
      mapNat tf sb db k (i + 1) (writeArr mem (db + i) (tf (mem (sb + i))))

/-- The list of elements reached from `head` through the successor callable
`next` before hitting NULL (`none`), provided NULL is reached within `fuel`
steps; `none` when the fuel runs out first (in particular on a cyclic chain,
for every fuel). -/
def chainList (next : σ → Option σ) : Option σ → Nat → Option (List σ)
  | none, _ => some []
  | some _, 0 => none
  | some v, fuel + 1 => (chainList next (next v) fuel).map (fun l => v :: l)

/-- C `for(value=first_e; value!=NULL; value=next()) acc=body();` from the
`fold_s` macro (src/lambda.h lines 141-146): stop on NULL and return the
accumulator, otherwise fold the current element in and advance through the
successor callable. `none` when the fuel bound is exhausted before NULL. -/
def fold_sRun (next : σ → Option σ) (body : α → σ → α) : α → Option σ → Nat → Option α
  | acc, none, _ => some acc
  | _, some _, 0 => none
  | acc, some v, fuel + 1 => fold_sRun next body (body acc v) (next v) fuel

/-- C `for(value=first_e; value!=NULL; value=body())` from the `foreach_s`
macro (src/lambda.h lines 169-172): the single body both performs the
per-element effect (threaded here through a state `τ`) and returns the next
element; the loop stops when the body returns NULL. -/
def foreach_sRun (body : τ → σ → τ × Option σ) : τ → Option σ → Nat → Option τ
  | st, none, _ => some st
  | _, some _, 0 => none
  | st, some v, fuel + 1 => foreach_sRun body (body st v).1 (body st v).2 fuel

/-- C recursive `aux` from the `map_s` macro (src/lambda.h lines 257-265):
NULL maps to NULL; otherwise first recurse on the successor, then call the
body with the current element and the already-built new successor. Outer
`none` when the fuel bound is exhausted before NULL. -/
def map_sRun (next : σ → Option σ) (body : σ → Option σ → Option σ) :
    Option σ → Nat → Option (Option σ)
  | none, _ => some none
  | some _, 0 => none
  | some v, fuel + 1 => (map_sRun next body (next v) fuel).map (fun nx => body v nx)

/-- The chain reached from `head` through `next` is finite and acyclic: NULL
is reached after finitely many steps. -/
def chainFinite (next : σ → Option σ) (head : Option σ) : Prop :=
  ∃ (n : Nat) (l : List σ), chainList next head n = some l

/-- A chain node as in the examples: a data field and a successor address
(`none` = NULL). -/
structure Node (β : Type) where
  data : β
  next : Option Nat
deriving DecidableEq

/-- A heap of allocated nodes: contents at each address, and the next free
address (every address at or above `fresh` is unallocated). -/
structure Heap (β : Type) where
  mem : Nat → Option (Node β)
  fresh : Nat

/-- `malloc` of one node: the node is placed at the next free address. -/
def Heap.alloc (h : Heap β) (nd : Node β) : Heap β × Nat :=
  ({ mem := fun a => if a = h.fresh then some nd else h.mem a, fresh := h.fresh + 1 }, h.fresh)

/-- `h2` extends `h1`: every address allocated in `h1` has the same contents in
`h2`; `h2` may only have allocated further fresh addresses. -/
def Heap.Extends (h2 h1 : Heap β) : Prop :=
  h1.fresh ≤ h2.fresh ∧ ∀ a, a < h1.fresh → h2.mem a = h1.mem a

/-- The `map_s` macro once more, with the heap threaded through the two
callables so that allocation and mutation are observable: `findnext` is run on
the current element, then the recursion on its result, then the body on the
current element and the new successor, exactly as in `aux` (src/lambda.h lines
257-265). -/
def map_sHeap (findnext : Heap β → Nat → Heap β × Option Nat)
    (body : Heap β → Nat → Option Nat → Heap β × Option Nat) :
    Heap β → Option Nat → Nat → Option (Heap β × Option Nat)
  | h, none, _ => some (h, none)
  | _, some _, 0 => none
  | h, some v, fuel + 1 =>
      match map_sHeap findnext body (findnext h v).1 (findnext h v).2 fuel with
      | none => none
      | some (h2, nx2) => some (body h2 v nx2)

/-- Data values of the chain stored in heap `h` from `head`, read through the
`next` fields, within `fuel` steps. -/
def heapChainData (h : Heap β) : Option Nat → Nat → Option (List β)
  | none, _ => some []
  | some _, 0 => none
  | some v, fuel + 1 =>
      match h.mem v with
      | none => none
      | some nd => (heapChainData h nd.next fuel).map (fun l => nd.data :: l)

/-- The successor callable of map_struct_example.c: `return value->next;`.
It does not touch the heap. -/
def sqFindnext (h : Heap Int) (v : Nat) : Heap Int × Option Nat :=
  (h, match h.mem v with
      | some nd => nd.next
      | none => none)

/-- The transform of map_struct_example.c: `malloc` a node, set its data to
the square of the current node's data, wire the supplied successor into it and
return it. (Reading a NULL address would be undefined in C; modelled as
returning NULL without allocating.) -/
def sqBody (h : Heap Int) (v : Nat) (nx : Option Nat) : Heap Int × Option Nat :=
  match h.mem v with
  | some nd =>
      match h.alloc { data := nd.data * nd.data, next := nx } with
      | (h2, a) => (h2, some a)
  | none => (h, none)

/-- The three-node chain 1 -> 2 -> 3 of map_struct_example.c, at addresses
0, 1, 2. -/
def exHeap : Heap Int :=
  { mem := fun a =>
      if a = 0 then some { data := 1, next := some 1 }
      else if a = 1 then some { data := 2, next := some 2 }
      else if a = 2 then some { data := 3, next := none }
      else none,
    fresh := 3 }

/-- The chain values 1 → 2 → 3, as a pure successor callable over the values
themselves. -/
def next123 : Int → Option Int :=
  fun v => if v = 1 then some 2 else if v = 2 then some 3 else none

/-- The array [1, 2, 3, 4, 5] padded with zeros. -/
def arr15 : Nat → Int :=
  fun i => [1, 2, 3, 4, 5].getD i 0

/-- The array ["a", "b", "c"] padded with empty strings. -/
def arrStr : Nat → String :=
  fun i => ["a", "b", "c"].getD i ""

/-- The array [1, 2, 3] padded with zeros. -/
def arr123 : Nat → Int :=
  fun i => [1, 2, 3].getD i 0

theorem foldAux_eq_foldNat (f : α → β → α) (arr : Nat → β) :
    ∀ (k : Nat) (size i : Int), 0 ≤ i → (size - i).toNat = k →
      ∀ acc, foldAux f arr size i acc = foldNat f arr k i.toNat acc := by
  intro k
  induction k with
  | zero =>
      intro size i h0 hk acc
      rw [foldAux]
      have hns : ¬ i < size := by omega
      simp [hns, foldNat]
  | succ k ih =>
      intro size i h0 hk acc
      rw [foldAux]
      have hlt : i < size := by omega
      simp only [hlt, dif_pos]
      have h1 := ih size (i + 1) (by omega) (by omega) (f acc (arr i.toNat))
      rw [h1]
      have h2 : (i + 1).toNat = i.toNat + 1 := by omega
      rw [h2, foldNat]

theorem fold_eq_foldNat (f : α → β → α) (arr : Nat → β) (size : Int) (init : α) :
    fold f arr size init = foldNat f arr size.toNat 0 init := by
  have := foldAux_eq_foldNat f arr size.toNat size 0 (by omega) (by omega) init
  simpa [fold] using this

theorem mapAux_eq_mapNat (tf : β → β) (sb db : Nat) :
    ∀ (k : Nat) (size i : Int), 0 ≤ i → (size - i).toNat = k →
      ∀ mem, mapAux tf sb db size i mem = mapNat tf sb db k i.toNat mem := by
  intro k
  induction k with
  | zero =>
      intro size i h0 hk mem
      rw [mapAux]
      have hns : ¬ i < size := by omega
      simp [hns, mapNat]
  | succ k ih =>
      intro size i h0 hk mem
      rw [mapAux]
      have hlt : i < size := by omega
      simp only [hlt, dif_pos]
      have h1 := ih size (i + 1) (by omega) (by omega)
        (writeArr mem (db + i.toNat) (tf (mem (sb + i.toNat))))
      rw [h1]
      have h2 : (i + 1).toNat = i.toNat + 1 := by omega
      rw [h2, mapNat]

theorem map_eq_mapNat (tf : β → β) (sb db : Nat) (size : Int) (mem : Nat → β) :
    map tf sb db size mem = mapNat tf sb db size.toNat 0 mem := by
  have := mapAux_eq_mapNat tf sb db size.toNat size 0 (by omega) (by omega) mem
  simpa [map] using this

theorem foldNat_eq_range' (f : α → β → α) (arr : Nat → β) :
    ∀ (k i : Nat) (acc : α),
      foldNat f arr k i acc = (List.range' i k).foldl (fun a j => f a (arr j)) acc := by
  intro k
  induction k with
  | zero => intro i acc; simp [foldNat]
  | succ k ih =>
      intro i acc
      rw [foldNat, ih, List.range'_succ]
      rfl

theorem fold_sRun_eq_chainList (next : σ → Option σ) (body : α → σ → α) :
    ∀ (head : Option σ) (fuel : Nat) (acc : α),
      fold_sRun next body acc head fuel = (chainList next head fuel).map (fun l => l.foldl body acc) := by
  intro head fuel
  induction fuel generalizing head with
  | zero =>
      intro acc
      cases head with
      | none => rfl
      | some v => rfl
  | succ fuel ih =>
      intro acc
      cases head with
      | none => rfl
      | some v =>
          rw [fold_sRun, chainList, ih (next v) (body acc v)]
          cases chainList next (next v) fuel with
          | none => rfl
          | some l => rfl

theorem foreach_sRun_eq_fold_sRun (next : σ → Option σ) (g : τ → σ → τ) :
    ∀ (head : Option σ) (fuel : Nat) (st : τ),
      foreach_sRun (fun s v => (g s v, next v)) st head fuel = fold_sRun next g st head fuel := by
  intro head fuel
  induction fuel generalizing head with
  | zero =>
      intro st
      cases head with
      | none => rfl
      | some v => rfl
  | succ fuel ih =>
      intro st
      cases head with
      | none => rfl
      | some v => exact ih (next v) (g st v)

theorem map_sRun_eq_chainList (next : σ → Option σ) (body : σ → Option σ → Option σ) :
    ∀ (head : Option σ) (fuel : Nat),
      map_sRun next body head fuel
        = (chainList next head fuel).map (fun l => l.foldr (fun v nx => body v nx) none) := by
  intro head fuel
  induction fuel generalizing head with
  | zero =>
      cases head with
      | none => rfl
      | some v => rfl
  | succ fuel ih =>
      cases head with
      | none => rfl
      | some v =>
          rw [map_sRun, chainList, ih (next v)]
          cases chainList next (next v) fuel with
          | none => rfl
          | some l => rfl

theorem foldl_append_singleton (l : List σ) :
    ∀ (init : List σ), l.foldl (fun acc v => acc ++ [v]) init = init ++ l := by
  induction l with
  | nil => intro init; simp
  | cons v l ih => intro init; rw [List.foldl_cons, ih]; simp

theorem chainList_none_of_not_finite (next : σ → Option σ) (head : Option σ)
    (h : ¬ chainFinite next head) (fuel : Nat) : chainList next head fuel = none := by
  cases hc : chainList next head fuel with
  | none => rfl
  | some l => exact absurd ⟨fuel, l, hc⟩ h

theorem Heap.Extends.refl (h : Heap β) : h.Extends h :=
  ⟨Nat.le_refl _, fun _ _ => rfl⟩

theorem Heap.Extends.trans {h3 h2 h1 : Heap β} (g : h3.Extends h2) (f : h2.Extends h1) :
    h3.Extends h1 :=
  ⟨Nat.le_trans f.1 g.1, fun a ha => (g.2 a (Nat.lt_of_lt_of_le ha f.1)).trans (f.2 a ha)⟩

theorem Heap.alloc_extends (h : Heap β) (nd : Node β) : (h.alloc nd).1.Extends h := by
  refine ⟨Nat.le_succ _, fun a ha => ?_⟩
  have : ¬ a = h.fresh := by omega
  simp [Heap.alloc, this]

theorem sqFindnext_extends (h : Heap Int) (v : Nat) : (sqFindnext h v).1.Extends h :=
  Heap.Extends.refl h

theorem sqBody_extends (h : Heap Int) (v : Nat) (nx : Option Nat) :
    (sqBody h v nx).1.Extends h := by
  unfold sqBody
  cases h.mem v with
  | none => exact Heap.Extends.refl h
  | some nd => exact Heap.alloc_extends h _

theorem map_sHeap_extends (findnext : Heap β → Nat → Heap β × Option Nat)
    (body : Heap β → Nat → Option Nat → Heap β × Option Nat)
    (hf : ∀ h v, (findnext h v).1.Extends h)
    (hb : ∀ h v nx, (body h v nx).1.Extends h) :
    ∀ (fuel : Nat) (h : Heap β) (head : Option Nat) (h' : Heap β) (r : Option Nat),
      map_sHeap findnext body h head fuel = some (h', r) → h'.Extends h := by
  intro fuel
  induction fuel with
  | zero =>
      intro h head h' r hrun
      cases head with
      | none =>
          simp only [map_sHeap, Option.some.injEq, Prod.mk.injEq] at hrun
          obtain ⟨rfl, rfl⟩ := hrun
          exact Heap.Extends.refl _
      | some v => simp [map_sHeap] at hrun
  | succ fuel ih =>
      intro h head h' r hrun
      cases head with
      | none =>
          simp only [map_sHeap, Option.some.injEq, Prod.mk.injEq] at hrun
          obtain ⟨rfl, rfl⟩ := hrun
          exact Heap.Extends.refl _
      | some v =>
          rw [map_sHeap] at hrun
          cases hrec : map_sHeap findnext body (findnext h v).1 (findnext h v).2 fuel with
          | none => rw [hrec] at hrun; exact absurd hrun (by simp)
          | some p =>
              rw [hrec] at hrun
              have h2x : p.1.Extends h :=
                (ih (findnext h v).1 (findnext h v).2 p.1 p.2
                  (by rw [hrec])).trans (hf h v)
              have hbx : (body p.1 v p.2).1.Extends p.1 := hb p.1 v p.2
              have : body p.1 v p.2 = (h', r) := by
                simpa using hrun
              rw [this] at hbx
              exact hbx.trans h2x

theorem writeArr_self (mem : Nat → β) (i : Nat) : writeArr mem i (mem i) = mem := by
  funext j
  simp only [writeArr]
  split
  · next h => rw [h]
  · rfl

theorem mapNat_id_aliased (sb : Nat) :
    ∀ (k i : Nat) (mem : Nat → β), mapNat (fun v => v) sb sb k i mem = mem := by
  intro k
  induction k with
  | zero => intro i mem; rfl
  | succ k ih =>
      intro i mem
      rw [mapNat, writeArr_self, ih]

theorem mapNat_frame (tf : β → β) (sb db : Nat) :
    ∀ (k i : Nat) (mem : Nat → β) (a : Nat),
      (∀ j, i ≤ j → j < i + k → a ≠ db + j) →
      mapNat tf sb db k i mem a = mem a := by
  intro k
  induction k with
  | zero => intro i mem a _; rfl
  | succ k ih =>
      intro i mem a hout
      rw [mapNat, ih (i + 1) _ a (fun j hj1 hj2 => hout j (by omega) (by omega))]
      have ha : a ≠ db + i := hout i (Nat.le_refl i) (by omega)
      simp [writeArr, ha]

theorem mapNat_write_disjoint (tf : β → β) (sb db n : Nat)
    (hdisj : ∀ p, p < n → ∀ q, q < n → sb + p ≠ db + q) :
    ∀ (k i : Nat), i + k ≤ n → ∀ (mem : Nat → β) (j : Nat), i ≤ j → j < i + k →
      mapNat tf sb db k i mem (db + j) = tf (mem (sb + j)) := by
  intro k
  induction k with
  | zero => intro i _ mem j hj1 hj2; omega
  | succ k ih =>
      intro i hik mem j hj1 hj2
      rw [mapNat]
      by_cases hji : j = i
      · subst hji
        rw [mapNat_frame tf sb db k (j + 1) _ (db + j)
          (fun j' h1 h2 he => by omega)]
        simp [writeArr]
      · rw [ih (i + 1) (by omega) _ j (by omega) (by omega)]
        have hne : sb + j ≠ db + i := hdisj j (by omega) i (by omega)
        simp [writeArr, hne]

theorem mapNat_eq_range' {β : Type} (tf : β → β) (sb db : Nat) :
    ∀ (k i : Nat) (mem : Nat → β),
      mapNat tf sb db k i mem
        = (List.range' i k).foldl (fun m j => writeArr m (db + j) (tf (m (sb + j)))) mem := by
  intro k
  induction k with
  | zero => intro i mem; simp [mapNat]
  | succ k ih =>
      intro i mem
      rw [mapNat, ih, List.range'_succ]
      rfl

theorem cycle_not_finite : ¬ chainFinite (fun v : Nat => some v) (some 0) := by
  rintro ⟨n, l, hl⟩
  induction n generalizing l with
  | zero => exact Option.noConfusion hl
  | succ n ih =>
      rw [chainList] at hl
      cases hc : chainList (fun v : Nat => some v) (some 0) n with
      | none => rw [hc] at hl; exact Option.noConfusion hl
      | some l2 => exact ih l2 hc

/-- C1: `map_s` builds the new chain tail-to-head. For every finite acyclic
input chain (elements `l` reached before NULL), the run equals the right fold
of the transform over `l` with NULL as the base: the last element's transform
receives NULL as successor, each preceding element's transform receives the
already-built new node, and the head's result is returned. A NULL input head
yields a NULL head, and running the squaring transform of
map_struct_example.c over the heap chain [1,2,3] yields the chain [1,4,9]. -/
theorem mapChain_tail_to_head :
    (∀ (σ : Type) (next : σ → Option σ) (tr : σ → Option σ → Option σ)
        (head : Option σ) (fuel : Nat) (l : List σ),
        chainList next head fuel = some l →
        map_sRun next tr head fuel = some (l.foldr (fun v nx => tr v nx) none))
    ∧ (∀ (σ : Type) (next : σ → Option σ) (tr : σ → Option σ → Option σ) (fuel : Nat),
        map_sRun next tr (none : Option σ) fuel = some none)
    ∧ (map_sHeap sqFindnext sqBody exHeap (some 0) 10).bind
        (fun p => heapChainData p.1 p.2 10) = some [1, 4, 9] := by
  refine ⟨?_, ?_, ?_⟩
  · intro σ next tr head fuel l hl
    rw [map_sRun_eq_chainList, hl]
    rfl
  · intro σ next tr fuel
    cases fuel with
    | zero => rfl
    | succ fuel => rfl
  · decide

theorem mapChain_tail_to_head_witness :
    chainList next123 (some 1) 5 = some [1, 2, 3]
    ∧ map_sRun next123 (fun v _ => some (v * v)) (some 1) 5
        = some (([1, 2, 3] : List Int).foldr (fun v _ => some (v * v)) none) :=
  ⟨by decide,
   mapChain_tail_to_head.1 Int next123 (fun v _ => some (v * v)) (some 1) 5 [1, 2, 3]
     (by decide)⟩

/-- C2: `fold` is the left fold over indices 0..n-1 in increasing order: the
accumulator starts at the initial value and is replaced by the reducer's
result at each index, the final accumulator is returned; size 0 returns the
initial accumulator for any reducer; summing [1,2,3,4,5] from 0 gives 15, and
a non-commutative string reducer observes the elements left-to-right. -/
theorem reduceArray_left_fold :
    (∀ (α β : Type) (f : α → β → α) (arr : Nat → β) (n : Nat) (init : α),
        fold f arr (n : Int) init = (List.range n).foldl (fun a i => f a (arr i)) init)
    ∧ (∀ (α β : Type) (f : α → β → α) (arr : Nat → β) (init : α),
        fold f arr 0 init = init)
    ∧ fold (fun a v => a + v) arr15 5 (0 : Int) = 15
    ∧ fold (fun acc v => acc ++ "-" ++ v) arrStr 3 "" = "-a-b-c" := by
  refine ⟨?_, ?_, ?_, ?_⟩
  · intro α β f arr n init
    rw [fold_eq_foldNat, foldNat_eq_range', List.range_eq_range', Int.toNat_natCast]
  · intro α β f arr init
    rw [fold_eq_foldNat]
    rfl
  · rw [fold_eq_foldNat]
    decide
  · rw [fold_eq_foldNat]
    rfl

/-- C3: `fold_s` starting from the head stops on NULL returning the
accumulator, and otherwise applies the reducer to the accumulator and current
element before advancing through the successor callable, so the run over a
finite chain is exactly the left fold of the reducer over the chain's element
list (each element once, head-to-NULL order); over the chain [1,2,3] with
addition from 0 it returns 6, with exactly 3 reducer invocations. -/
theorem reduceChain_left_fold :
    (∀ (σ α : Type) (next : σ → Option σ) (f : α → σ → α) (acc : α)
        (head : Option σ) (fuel : Nat),
        fold_sRun next f acc head fuel
          = (chainList next head fuel).map (fun l => l.foldl f acc))
    ∧ fold_sRun next123 (fun a v => a + v) (0 : Int) (some 1) 5 = some 6
    ∧ fold_sRun next123 (fun p v => (p.1 + v, p.2 + 1)) ((0 : Int), (0 : Nat)) (some 1) 5
        = some (6, 3) := by
  refine ⟨?_, by decide, by decide⟩
  intro σ α next f acc head fuel
  exact fold_sRun_eq_chainList next f head fuel acc

/-- C4: `foreach_s` invokes the single combined body once per element starting
at the head, feeds each invocation's returned element back as the next current
element, stops exactly when an invocation returns NULL (NULL head: zero
invocations), and is the same traversal loop as `fold_s` with no accumulator
threaded: with a body returning `next v` it coincides with `fold_s`, and with
a trace-recording body it visits exactly the chain's elements in order. -/
theorem forEachChain_traversal :
    (∀ (σ τ : Type) (body : τ → σ → τ × Option σ) (st : τ) (fuel : Nat),
        foreach_sRun body st (none : Option σ) fuel = some st)
    ∧ (∀ (σ τ : Type) (body : τ → σ → τ × Option σ) (st : τ) (v : σ) (fuel : Nat),
        foreach_sRun body st (some v) (fuel + 1)
          = foreach_sRun body (body st v).1 (body st v).2 fuel)
    ∧ (∀ (σ τ : Type) (g : τ → σ → τ) (next : σ → Option σ) (st : τ)
        (head : Option σ) (fuel : Nat),
        foreach_sRun (fun s v => (g s v, next v)) st head fuel
          = fold_sRun next g st head fuel)
    ∧ (∀ (σ : Type) (next : σ → Option σ) (head : Option σ) (fuel : Nat) (l : List σ),
        chainList next head fuel = some l →
        foreach_sRun (fun tr v => (tr ++ [v], next v)) ([] : List σ) head fuel = some l) := by
  refine ⟨?_, ?_, ?_, ?_⟩
  · intro σ τ body st fuel
    cases fuel with
    | zero => rfl
    | succ fuel => rfl
  · intro σ τ body st v fuel
    rfl
  · intro σ τ g next st head fuel
    exact foreach_sRun_eq_fold_sRun next g head fuel st
  · intro σ next head fuel l hl
    rw [foreach_sRun_eq_fold_sRun next (fun tr v => tr ++ [v]) head fuel,
      fold_sRun_eq_chainList, hl, Option.map_some', foldl_append_singleton,
      List.nil_append]

theorem forEachChain_traversal_witness :
    chainList next123 (some 1) 5 = some [1, 2, 3]
    ∧ foreach_sRun (fun tr v => (tr ++ [v], next123 v)) ([] : List Int) (some 1) 5
        = some [1, 2, 3] :=
  ⟨by decide, forEachChain_traversal.2.2.2 Int next123 (some 1) 5 [1, 2, 3] (by decide)⟩

/-- C5: `map` writes `destination[i] = transform(source[i])` for each index
below the length, in increasing index order (the run is the left fold of the
single-slot writes over the index range), touching exactly one destination
slot per input element: when the destination range is disjoint from the
source range, every destination slot holds the transformed source slot, and
every address outside the destination slots is unchanged. -/
theorem mapArray_pointwise :
    (∀ (β : Type) (tf : β → β) (sb db : Nat) (n : Nat) (mem : Nat → β),
        map tf sb db (n : Int) mem
          = (List.range n).foldl (fun m i => writeArr m (db + i) (tf (m (sb + i)))) mem)
    ∧ (∀ (β : Type) (tf : β → β) (sb db n : Nat) (mem : Nat → β),
        (∀ p, p < n → ∀ q, q < n → sb + p ≠ db + q) →
        (∀ j, j < n → map tf sb db (n : Int) mem (db + j) = tf (mem (sb + j)))
        ∧ (∀ a, (∀ j, j < n → a ≠ db + j) → map tf sb db (n : Int) mem a = mem a)) := by
  constructor
  · intro β tf sb db n mem
    rw [map_eq_mapNat, mapNat_eq_range', List.range_eq_range', Int.toNat_natCast]
  · intro β tf sb db n mem hdisj
    have hn : ((n : Int)).toNat = n := by omega
    constructor
    · intro j hj
      rw [map_eq_mapNat, hn]
      exact mapNat_write_disjoint tf sb db n hdisj n 0 (by omega) mem j (by omega) (by omega)
    · intro a ha
      rw [map_eq_mapNat, hn]
      exact mapNat_frame tf sb db n 0 mem a (fun j hj1 hj2 => ha j (by omega))

theorem mapArray_pointwise_witness :
    (∀ p, p < 3 → ∀ q, q < 3 → 0 + p ≠ 10 + q)
    ∧ map (fun v : Int => v * v) 0 10 3 arr123 10 = 1
    ∧ map (fun v : Int => v * v) 0 10 3 arr123 11 = 4
    ∧ map (fun v : Int => v * v) 0 10 3 arr123 12 = 9
    ∧ map (fun v : Int => v * v) 0 10 3 arr123 0 = 1 := by
  have hdisj : ∀ p, p < 3 → ∀ q, q < 3 → 0 + p ≠ 10 + q := by decide
  have h := mapArray_pointwise.2 Int (fun v : Int => v * v) 0 10 3 arr123 hdisj
  refine ⟨hdisj, ?_, ?_, ?_, ?_⟩
  · exact (h.1 0 (by decide)).trans (by decide)
  · exact (h.1 1 (by decide)).trans (by decide)
  · exact (h.1 2 (by decide)).trans (by decide)
  · exact (h.2 0 (by decide)).trans (by decide)

/-- C6: `map_s` is non-destructive. Whenever the successor and transform
callables leave every already-allocated node unchanged (they may only
allocate, as the squaring example's callables do), a completed run leaves
every address allocated in the input heap — in particular every node and node
value of the original chain — with exactly its original contents; the result
chain consists of newly allocated nodes. -/
theorem mapChain_nondestructive :
    ∀ (β : Type) (findnext : Heap β → Nat → Heap β × Option Nat)
      (body : Heap β → Nat → Option Nat → Heap β × Option Nat),
      (∀ h v, (findnext h v).1.Extends h) →
      (∀ h v nx, (body h v nx).1.Extends h) →
      ∀ (fuel : Nat) (h : Heap β) (head : Option Nat) (h' : Heap β) (r : Option Nat),
        map_sHeap findnext body h head fuel = some (h', r) →
        h'.Extends h := by
  intro β findnext body hf hb fuel h head h' r hrun
  exact map_sHeap_extends findnext body hf hb fuel h head h' r hrun

theorem mapChain_nondestructive_witness :
    (map_sHeap sqFindnext sqBody exHeap (some 0) 10).map
        (fun p => (p.1.mem 0, p.1.mem 1, p.1.mem 2))
      = some (some { data := 1, next := some 1 }, some { data := 2, next := some 2 },
          some { data := 3, next := none }) := by
  cases hrun : map_sHeap sqFindnext sqBody exHeap (some 0) 10 with
  | none =>
      have hne : (map_sHeap sqFindnext sqBody exHeap (some 0) 10).isSome = true := by decide
      rw [hrun] at hne
      exact Bool.noConfusion hne
  | some p =>
      obtain ⟨h', r⟩ := p
      have hx : h'.Extends exHeap :=
        mapChain_nondestructive Int sqFindnext sqBody sqFindnext_extends sqBody_extends
          10 exHeap (some 0) h' r hrun
      have e0 : h'.mem 0 = exHeap.mem 0 := hx.2 0 (by decide)
      have e1 : h'.mem 1 = exHeap.mem 1 := hx.2 1 (by decide)
      have e2 : h'.mem 2 = exHeap.mem 2 := hx.2 2 (by decide)
      rw [Option.map_some', e0, e1, e2]
      rfl

/-- C7: under the precondition that the chain reached from the head through
the successor callable is finite and acyclic (NULL reached after finitely many
steps), each of `fold_s`, `foreach_s` and `map_s` terminates and returns a
value (some fuel bound suffices); without that precondition no fuel bound ever
suffices — the traversals never complete. -/
theorem chainCombinators_termination :
    ∀ (σ α τ : Type) (next : σ → Option σ) (f : α → σ → α) (init : α)
      (g : τ → σ → τ) (st : τ) (tr : σ → Option σ → Option σ) (head : Option σ),
      (chainFinite next head →
        (∃ fuel a, fold_sRun next f init head fuel = some a)
        ∧ (∃ fuel s, foreach_sRun (fun x v => (g x v, next v)) st head fuel = some s)
        ∧ (∃ fuel r, map_sRun next tr head fuel = some r))
      ∧ (¬ chainFinite next head →
        ∀ fuel,
          fold_sRun next f init head fuel = none
          ∧ foreach_sRun (fun x v => (g x v, next v)) st head fuel = none
          ∧ map_sRun next tr head fuel = none) := by
  intro σ α τ next f init g st tr head
  constructor
  · rintro ⟨n, l, hl⟩
    refine ⟨⟨n, l.foldl f init, ?_⟩, ⟨n, l.foldl g st, ?_⟩,
      ⟨n, l.foldr (fun v nx => tr v nx) none, ?_⟩⟩
    · rw [fold_sRun_eq_chainList, hl]
      rfl
    · rw [foreach_sRun_eq_fold_sRun, fold_sRun_eq_chainList, hl]
      rfl
    · rw [map_sRun_eq_chainList, hl]
      rfl
  · intro hnf fuel
    have hc := chainList_none_of_not_finite next head hnf fuel
    refine ⟨?_, ?_, ?_⟩
    · rw [fold_sRun_eq_chainList, hc]
      rfl
    · rw [foreach_sRun_eq_fold_sRun, fold_sRun_eq_chainList, hc]
      rfl
    · rw [map_sRun_eq_chainList, hc]
      rfl

theorem chainCombinators_termination_witness :
    chainFinite next123 (some 1)
    ∧ (∃ fuel a, fold_sRun next123 (fun a v => a + v) (0 : Int) (some 1) fuel = some a)
    ∧ fold_sRun (fun v : Nat => some v) (fun a v => a + v) 0 (some 0) 7 = none
    ∧ map_sRun (fun v : Nat => some v) (fun v _ => some v) (some 0) 7 = none := by
  have hfin : chainFinite next123 (some 1) := ⟨5, [1, 2, 3], by decide⟩
  refine ⟨hfin, ?_, ?_, ?_⟩
  · exact ((chainCombinators_termination Int Int Int next123 (fun a v => a + v) 0
      (fun a v => a + v) 0 (fun v _ => some v) (some 1)).1 hfin).1
  · exact ((chainCombinators_termination Nat Nat Nat (fun v => some v) (fun a v => a + v) 0
      (fun a v => a + v) 0 (fun v _ => some v) (some 0)).2 cycle_not_finite 7).1
  · exact ((chainCombinators_termination Nat Nat Nat (fun v => some v) (fun a v => a + v) 0
      (fun a v => a + v) 0 (fun v _ => some v) (some 0)).2 cycle_not_finite 7).2.2

/-- C8: `map` with the identity transform and the destination aliasing the
source leaves the memory unchanged, for every base, every size and every
initial contents. -/
theorem mapArray_identity_aliased :
    ∀ (β : Type) (sb : Nat) (size : Int) (mem : Nat → β),
      map (fun v => v) sb sb size mem = mem := by
  intro β sb size mem
  rw [map_eq_mapNat]
  exact mapNat_id_aliased sb size.toNat 0 mem

/-- C10: both array combinators treat any size at or below zero — including
negative sizes — as the empty range, because the loop runs only while the
`int` counter satisfies `i < size`: `fold` returns the initial accumulator
with zero reducer invocations, and `map` leaves the memory unchanged. -/
theorem arrayCombinators_nonpositive_size :
    ∀ (α β : Type) (f g : α → β → α) (tf : β → β) (arr mem : Nat → β)
      (sb db : Nat) (size : Int) (init : α),
      size ≤ 0 →
      fold f arr size init = init
      ∧ (fold (fun p v => (g p.1 v, p.2 + 1)) arr size (init, (0 : Nat))).2 = 0
      ∧ map tf sb db size mem = mem := by
  intro α β f g tf arr mem sb db size init hsz
  have h0 : size.toNat = 0 := by omega
  refine ⟨?_, ?_, ?_⟩
  · rw [fold_eq_foldNat, h0]
    rfl
  · rw [fold_eq_foldNat, h0]
    rfl
  · rw [map_eq_mapNat, h0]
    rfl

theorem arrayCombinators_nonpositive_size_witness :
    ((-1 : Int) ≤ 0)
    ∧ fold (fun a v => a + v) arr15 (-1) (0 : Int) = 0
    ∧ (fold (fun p v => (p.1 + v, p.2 + 1)) arr15 (-1) ((0 : Int), (0 : Nat))).2 = 0
    ∧ map (fun v : Int => v * v) 0 10 (-1) arr15 = arr15 := by
  have h := arrayCombinators_nonpositive_size Int Int (fun a v => a + v) (fun a v => a + v)
    (fun v : Int => v * v) arr15 arr15 0 10 (-1) 0 (by decide)
  exact ⟨by decide, h.1, h.2.1, h.2.2⟩

end LambdaCraft
